import Mathlib

/-!
Shallow embedding of `src/FindDuplicates.py` (duplicate-file finder).

Modelling conventions:
* Bytes are `Nat`; file content is `List Nat`.
* `hashlib.new('sha512')` fed a byte stream is modelled as an injective
  digest function represented by the byte stream itself.  This is the
  idealisation the program itself relies on (the spec's
  `HashCollisionAssumption`: digest equality is taken as content equality).
* The filesystem is a record of `realpath` (total: `os.path.realpath`
  does not raise for missing targets), `stat` (`os.path.getsize`, `none`
  models the exception swallowed by the bare `except` at line 68) and
  `read` (opening + reading content, `none` models the `OSError` caught
  at line 97).
* `os.walk` is the host collaborator: it enumerates every directory
  top-down (the program never prunes `dir_names`), and yields nothing at
  all when the root does not exist or is not a directory (its documented
  default behaviour with `onerror=None`); the root is therefore an
  `Option FsTree`.
* Python `dict` preserves insertion order and `defaultdict(list)`
  appends to the list at a key, creating the key at the end on a miss;
  `appendEntry` on an association list models exactly that.
-/

namespace FindDuplicates

abbrev Byte := Nat
abbrev Digest := List Byte
abbrev Path := String

/-- The filesystem facts the program consumes.  `stat` and `read` are
partial: `none` is the exception path the source swallows. -/
structure FileSystem where
  realpath : Path → Path
  stat : Path → Option Nat
  read : Path → Option (List Byte)

/-- The loop of `chunk_reader`, with explicit fuel so the recursion is
structural: each iteration with a positive chunk size consumes at least
one byte, so `content.length` fuel is always enough. -/
def chunkReaderFuel : Nat → List Byte → Nat → List (List Byte)
  | _, _, 0 => []
  | _, [], _ => []
  | 0, _ :: _, _ + 1 => []
  | fuel + 1, b :: bs, n + 1 =>
      (b :: bs).take (n + 1) :: chunkReaderFuel fuel ((b :: bs).drop (n + 1)) (n + 1)

/-- `chunk_reader` (lines 9-23): repeatedly `read(chunk_size)`; stops at the
first empty chunk.  `f.read(0)` returns `b''`, so a zero chunk size yields
no chunks at all. -/
def chunkReader (content : List Byte) (chunkSize : Nat) : List (List Byte) :=
  chunkReaderFuel content.length content chunkSize

/-- The SHA-512 digest, idealised as injective (see module comment): the
digest of a byte stream is represented by the stream itself. -/
def sha512 (bs : List Byte) : Digest := bs

/-- `get_hash` (lines 25-45).  `first_chunk_only=True` hashes
`f.read(chunk_size)`, i.e. the first `chunkSize` bytes; otherwise every
chunk of `chunk_reader` is fed to the hash, so the digest is that of the
concatenation of the chunks.  `none` models the `OSError` from `open`/read. -/
def getHash (fs : FileSystem) (filename : Path) (firstChunkOnly : Bool)
    (chunkSize : Nat) : Option Digest :=
  (fs.read filename).map fun content =>
    if firstChunkOnly then sha512 (content.take chunkSize)
    else sha512 (chunkReader content chunkSize).flatten

/-! ### Ordered dictionaries (`defaultdict(list)`) -/

/-- `d[k].append(v)` on a `defaultdict(list)`: append to the existing
key's list, or create the key at the end of the insertion order. -/
def appendEntry {κ : Type} [DecidableEq κ] :
    List (κ × List Path) → κ → Path → List (κ × List Path)
  | [], k, v => [(k, [v])]
  | (k', vs) :: rest, k, v =>
      if k' = k then (k', vs ++ [v]) :: rest
      else (k', vs) :: appendEntry rest k v

/-- Dictionary lookup, `[]` on a missing key. -/
def lookupKey {κ : Type} [DecidableEq κ] :
    List (κ × List Path) → κ → List Path
  | [], _ => []
  | (k', vs) :: rest, k => if k' = k then vs else lookupKey rest k

/-- The keys of the dictionary, in insertion order. -/
def keys {κ : Type} (d : List (κ × List Path)) : List κ := d.map Prod.fst

/-- `hash_table.values()` flattened: every path stored in the dictionary,
in iteration order. -/
def allFiles {κ : Type} (d : List (κ × List Path)) : List Path :=
  (d.map Prod.snd).flatten

/-! ### The directory tree and `os.walk` -/

mutual

/-- A directory: its regular-file names and its named subdirectories. -/
inductive FsTree where
  | node (files : List String) (subdirs : FsForest)

/-- A list of named subdirectories. -/
inductive FsForest where
  | nil
  | cons (name : String) (t : FsTree) (rest : FsForest)

end

/-- `file_name.startswith('.')` (line 58): the base name's first
character is the hidden-file marker. -/
def hiddenName (name : String) : Bool := name.data.head? = some '.'

/-- `os.path.join` for the absolute directory paths the walk produces. -/
def joinPath (dirPath fileName : String) : Path := dirPath ++ "/" ++ fileName

mutual

/-- `os.walk` top-down: yield `(dirpath, filenames)` for the directory,
then recurse into every subdirectory — including hidden ones, since the
program never edits `dir_names`. -/
def walkTree (path : String) : FsTree → List (String × List String)
  | .node files subdirs => (path, files) :: walkForest path subdirs

/-- Walk each subdirectory in order. -/
def walkForest (path : String) : FsForest → List (String × List String)
  | .nil => []
  | .cons name t rest => walkTree (joinPath path name) t ++ walkForest path rest

end

/-- `os.walk(abs_path)` as called at line 54: a missing or non-directory
root (`none`) yields no triples at all. -/
def osWalk (rootPath : String) : Option FsTree → List (String × List String)
  | none => []
  | some tree => walkTree rootPath tree

/-! ### `build_hash_table` (lines 47-71) -/

/-- The body of the inner loop of `build_hash_table` for one directory
entry: skip hidden file names, resolve the joined path, stat it, and on
success append the resolved path under its size; any exception (modelled
as a failing `stat`) is swallowed by the bare `except`. -/
def buildStep (fs : FileSystem) (t : List (Nat × List Path))
    (dirPath fileName : String) : List (Nat × List Path) :=
  if hiddenName fileName then t
  else
    let p := fs.realpath (joinPath dirPath fileName)
    match fs.stat p with
    | none => t
    | some size => appendEntry t size p

/-- `build_hash_table(root_dir)`: fold the walk, grouping resolved paths
by byte size. -/
def buildHashTable (fs : FileSystem) (rootPath : String)
    (root : Option FsTree) : List (Nat × List Path) :=
  (osWalk rootPath root).foldl
    (fun t e => e.2.foldl (fun t f => buildStep fs t e.1 f) t) []

/-! ### `check_for_duplicates` (lines 73-101) -/

/-- The digest `check_for_duplicates` computes for a candidate:
`get_hash(candidate_path, first_chunk_only=False, chunk_size)`. -/
def digestOf (fs : FileSystem) (chunkSize : Nat) (p : Path) : Option Digest :=
  getHash fs p false chunkSize

/-- One iteration of the candidate loop: full-content hash, append to the
bucket of that digest; an `OSError` (failing read) drops the file. -/
def dupStep (fs : FileSystem) (chunkSize : Nat)
    (d : List (Digest × List Path)) (p : Path) : List (Digest × List Path) :=
  match digestOf fs chunkSize p with
  | none => d
  | some h => appendEntry d h p

/-- `check_for_duplicates(hash_table, chunk_size)`: for every size bucket
and every candidate in it, compute the FULL-content hash (the source has
no prefix phase: `first_chunk_only=True` is never passed) and bucket the
path by digest, in one dictionary shared across all size buckets. -/
def checkForDuplicates (fs : FileSystem) (table : List (Nat × List Path))
    (chunkSize : Nat) : List (Digest × List Path) :=
  table.foldl (fun d e => e.2.foldl (dupStep fs chunkSize) d) []

/-- The paths `check_for_duplicates` invokes a full-content
`get_hash(..., first_chunk_only=False, ...)` on: every candidate of every
size bucket, unconditionally (lines 88-92). -/
def fullHashCalls (table : List (Nat × List Path)) : List Path :=
  allFiles table

/-! ### `__main__` (lines 124-140) -/

/-- The chunk size the entry point passes to `check_for_duplicates`
(line 131): hardcoded, not configurable. -/
def mainChunkSize : Nat := 65000

/-- The option strings `build_argparse` registers (lines 115-121): only
`--root_dir`.  Any other `--option` makes `parse_args` exit with a usage
error. -/
def registeredOptions : List String := ["--root_dir"]

/-- The printed duplicate groups (lines 133-140): the values of the
digest dictionary whose length is at least 2 (the `file_list[1]` /
`IndexError` idiom). -/
def reportedGroups (dup : List (Digest × List Path)) : List (List Path) :=
  (dup.map Prod.snd).filter (fun g => 2 ≤ g.length)

/-- The whole pipeline as `__main__` runs it: build the size table, check
for duplicates with the hardcoded chunk size, filter the printed groups. -/
def pipelineOutput (fs : FileSystem) (rootPath : String)
    (root : Option FsTree) : List (List Path) :=
  reportedGroups
    (checkForDuplicates fs (buildHashTable fs rootPath root) mainChunkSize)

/-- `__main__` once arguments parsed: the printed groups plus the process
exit status.  The script body catches every per-file exception and the
final loop catches `IndexError`, so a parsed run always finishes and
exits 0 — there is no `InvalidRootError` anywhere in the source. -/
def mainRun (fs : FileSystem) (rootPath : String) (root : Option FsTree) :
    List (List Path) × Nat :=
  (pipelineOutput fs rootPath root, 0)

/-- The walk output flattened to `(dirpath, filename)` pairs, in the
order the nested loops of `build_hash_table` visit them. -/
def walkFilePairs (entries : List (String × List String)) :
    List (String × String) :=
  (entries.map (fun e => e.2.map (fun f => (e.1, f)))).flatten

/-- A static, consistent directory tree: the size `os.path.getsize`
reported during the walk agrees with the content a later open-and-read
returns for the same resolved path.  This is the premise "the input is an
(unchanging) directory tree". -/
def StaticFS (fs : FileSystem) : Prop :=
  ∀ p c, fs.read p = some c → fs.stat p = some c.length

/-! ### Concrete filesystems used to evaluate the program -/

/-- Contents of a root holding `a.txt` and `b.txt`: equal sizes, contents
that differ already in the first byte (hence within the first chunk). -/
def exRead1 : Path → Option (List Byte) := fun p =>
  if p = "root/a.txt" then some [1, 2, 3]
  else if p = "root/b.txt" then some [4, 5, 6] else none

/-- A filesystem with two same-size files of different content and no
symlinks; sizes are consistent with contents. -/
def exFs1 : FileSystem where
  realpath := id
  stat := fun p => (exRead1 p).map List.length
  read := exRead1

/-- The root directory holding just `a.txt` and `b.txt`. -/
def exTree1 : FsTree := .node ["a.txt", "b.txt"] .nil

/-- Contents of a root whose only files live inside a hidden directory
`.hidden` and are content-identical. -/
def exRead5 : Path → Option (List Byte) := fun p =>
  if p = "root/.hidden/a" then some [9, 9]
  else if p = "root/.hidden/b" then some [9, 9] else none

/-- A filesystem for the hidden-directory scenario. -/
def exFs5 : FileSystem where
  realpath := id
  stat := fun p => (exRead5 p).map List.length
  read := exRead5

/-- The root directory containing only the hidden subdirectory `.hidden`
with two visible duplicate files inside it. -/
def exTree5 : FsTree := .node [] (.cons ".hidden" (.node ["a", "b"] .nil) .nil)

/-- A filesystem where `link` is a symlink to `a.txt`: both directory
entries resolve to the same real path. -/
def exFs10 : FileSystem where
  realpath := fun p => if p = "root/link" then "root/a.txt" else p
  stat := fun p => if p = "root/a.txt" then some 3 else none
  read := fun p => if p = "root/a.txt" then some [7, 7, 7] else none

/-- The root directory holding `a.txt` and the symlink `link` to it. -/
def exTree10 : FsTree := .node ["a.txt", "link"] .nil

/-! ## Dictionary lemmas -/

section Dict

theorem keys_cons {κ : Type} (e : κ × List Path) (d : List (κ × List Path)) :
    keys (e :: d) = e.1 :: keys d := rfl

theorem allFiles_cons {κ : Type} (e : κ × List Path) (d : List (κ × List Path)) :
    allFiles (e :: d) = e.2 ++ allFiles d := rfl

theorem mem_allFiles {κ : Type} {d : List (κ × List Path)} {p : Path} :
    p ∈ allFiles d ↔ ∃ e ∈ d, p ∈ e.2 := by
  simp only [allFiles, List.mem_flatten, List.mem_map]
  constructor
  · rintro ⟨l, ⟨e, he, rfl⟩, hp⟩
    exact ⟨e, he, hp⟩
  · rintro ⟨e, he, hp⟩
    exact ⟨e.2, ⟨e, he, rfl⟩, hp⟩

variable {κ : Type} [DecidableEq κ]

theorem lookupKey_appendEntry_self (d : List (κ × List Path)) (k : κ) (v : Path) :
    lookupKey (appendEntry d k v) k = lookupKey d k ++ [v] := by
  induction d with
  | nil => simp [appendEntry, lookupKey]
  | cons e rest ih =>
    obtain ⟨k0, vs⟩ := e
    by_cases h : k0 = k
    · subst h
      simp [appendEntry, lookupKey]
    · simp [appendEntry, lookupKey, h, ih]

theorem lookupKey_appendEntry_ne (d : List (κ × List Path)) (k k' : κ) (v : Path)
    (h : k' ≠ k) : lookupKey (appendEntry d k v) k' = lookupKey d k' := by
  induction d with
  | nil => simp [appendEntry, lookupKey, Ne.symm h]
  | cons e rest ih =>
    obtain ⟨k0, vs⟩ := e
    by_cases h0 : k0 = k
    · subst h0
      simp [appendEntry, lookupKey, Ne.symm h]
    · by_cases h1 : k0 = k'
      · subst h1
        simp [appendEntry, lookupKey, h0]
      · simp [appendEntry, lookupKey, h0, h1, ih]

theorem appendEntry_entryProp {Q : κ → Path → Prop}
    (d : List (κ × List Path)) (k : κ) (v : Path)
    (hd : ∀ e ∈ d, ∀ w ∈ e.2, Q e.1 w) (hkv : Q k v) :
    ∀ e ∈ appendEntry d k v, ∀ w ∈ e.2, Q e.1 w := by
  induction d with
  | nil =>
    intro e he w hw
    rw [appendEntry, List.mem_singleton] at he
    subst he
    rw [List.mem_singleton] at hw
    subst hw
    exact hkv
  | cons e0 rest ih =>
    intro e he w hw
    obtain ⟨k0, vs⟩ := e0
    by_cases h0 : k0 = k
    · subst h0
      rw [appendEntry, if_pos rfl] at he
      rcases List.mem_cons.mp he with he | he
      · subst he
        rcases List.mem_append.mp hw with h | h
        · exact hd (k0, vs) (List.mem_cons_self _ _) w h
        · rw [List.mem_singleton] at h
          subst h
          exact hkv
      · exact hd e (List.mem_cons_of_mem _ he) w hw
    · rw [appendEntry, if_neg h0] at he
      rcases List.mem_cons.mp he with he | he
      · subst he
        exact hd (k0, vs) (List.mem_cons_self _ _) w hw
      · exact ih (fun e' he' => hd e' (List.mem_cons_of_mem _ he')) e he w hw

theorem allFiles_appendEntry_sub (d : List (κ × List Path)) (k : κ) (v : Path) :
    ∀ p ∈ allFiles (appendEntry d k v), p ∈ allFiles d ∨ p = v := by
  induction d with
  | nil =>
    intro p hp
    rw [appendEntry] at hp
    rw [allFiles_cons] at hp
    simp only [allFiles, List.map_nil, List.flatten_nil, List.append_nil] at hp
    rw [List.mem_singleton] at hp
    exact Or.inr hp
  | cons e0 rest ih =>
    obtain ⟨k0, vs⟩ := e0
    intro p hp
    by_cases h0 : k0 = k
    · subst h0
      rw [appendEntry, if_pos rfl, allFiles_cons] at hp
      rw [allFiles_cons]
      rcases List.mem_append.mp hp with hp | hp
      · rcases List.mem_append.mp hp with h | h
        · exact Or.inl (List.mem_append.mpr (Or.inl h))
        · rw [List.mem_singleton] at h
          exact Or.inr h
      · exact Or.inl (List.mem_append.mpr (Or.inr hp))
    · rw [appendEntry, if_neg h0, allFiles_cons] at hp
      rw [allFiles_cons]
      rcases List.mem_append.mp hp with hp | hp
      · exact Or.inl (List.mem_append.mpr (Or.inl hp))
      · rcases ih p hp with h | h
        · exact Or.inl (List.mem_append.mpr (Or.inr h))
        · exact Or.inr h

theorem keys_appendEntry (d : List (κ × List Path)) (k : κ) (v : Path) :
    keys (appendEntry d k v) = if k ∈ keys d then keys d else keys d ++ [k] := by
  induction d with
  | nil => simp [appendEntry, keys]
  | cons e0 rest ih =>
    obtain ⟨k0, vs⟩ := e0
    by_cases h0 : k0 = k
    · subst h0
      simp [appendEntry, keys]
    · rw [appendEntry, if_neg h0, keys_cons, ih, keys_cons]
      by_cases hk : k ∈ keys rest
      · rw [if_pos hk, if_pos (List.mem_cons_of_mem _ hk)]
      · rw [if_neg hk, if_neg ?_, List.cons_append]
        intro hc
        rcases List.mem_cons.mp hc with hc | hc
        · exact h0 hc.symm
        · exact hk hc

theorem keys_nodup_appendEntry (d : List (κ × List Path)) (k : κ) (v : Path)
    (h : (keys d).Nodup) : (keys (appendEntry d k v)).Nodup := by
  rw [keys_appendEntry]
  by_cases hk : k ∈ keys d
  · simpa [hk] using h
  · rw [if_neg hk, List.nodup_append]
    refine ⟨h, List.nodup_singleton k, ?_⟩
    intro a ha hb
    rw [List.mem_singleton] at hb
    subst hb
    exact hk ha

theorem lookupKey_eq_of_mem {d : List (κ × List Path)} {k : κ} {vs : List Path}
    (hnd : (keys d).Nodup) (h : (k, vs) ∈ d) : lookupKey d k = vs := by
  induction d with
  | nil => simp at h
  | cons e0 rest ih =>
    obtain ⟨k0, vs0⟩ := e0
    rw [keys_cons, List.nodup_cons] at hnd
    rcases List.mem_cons.mp h with he | he
    · have h1 : k = k0 := congrArg Prod.fst he
      have h2 : vs = vs0 := congrArg Prod.snd he
      simp only [lookupKey, if_pos h1.symm]
      exact h2.symm
    · have hk : k ∈ keys rest := by
        simp only [keys, List.mem_map]
        exact ⟨(k, vs), he, rfl⟩
      have h0 : k0 ≠ k := fun hek => hnd.1 (hek ▸ hk)
      simp only [lookupKey, if_neg h0]
      exact ih hnd.2 he

theorem entry_val_unique {d : List (κ × List Path)} {k : κ} {vs1 vs2 : List Path}
    (hnd : (keys d).Nodup) (h1 : (k, vs1) ∈ d) (h2 : (k, vs2) ∈ d) : vs1 = vs2 := by
  rw [← lookupKey_eq_of_mem hnd h1, ← lookupKey_eq_of_mem hnd h2]

theorem appendEntry_val_ne_nil (d : List (κ × List Path)) (k : κ) (v : Path)
    (hd : ∀ e ∈ d, e.2 ≠ []) : ∀ e ∈ appendEntry d k v, e.2 ≠ [] := by
  induction d with
  | nil =>
    intro e he
    rw [appendEntry, List.mem_singleton] at he
    subst he
    simp
  | cons e0 rest ih =>
    obtain ⟨k0, vs⟩ := e0
    intro e he
    by_cases h0 : k0 = k
    · subst h0
      rw [appendEntry, if_pos rfl] at he
      rcases List.mem_cons.mp he with he | he
      · subst he
        simp
      · exact hd e (List.mem_cons_of_mem _ he)
    · rw [appendEntry, if_neg h0] at he
      rcases List.mem_cons.mp he with he | he
      · subst he
        exact hd (k0, vs) (List.mem_cons_self _ _)
      · exact ih (fun e' he' => hd e' (List.mem_cons_of_mem _ he')) e he

end Dict

/-! ## Flattening the nested loops -/

theorem foldl_pairs_eq {A : Type} (g : A → String → String → A)
    (entries : List (String × List String)) (init : A) :
    entries.foldl (fun t e => e.2.foldl (fun t f => g t e.1 f) t) init
      = (walkFilePairs entries).foldl (fun t df => g t df.1 df.2) init := by
  induction entries generalizing init with
  | nil => rfl
  | cons e rest ih =>
    rw [List.foldl_cons, ih]
    show _ = ((e.2.map fun f => (e.1, f)) ++ walkFilePairs rest).foldl _ init
    rw [List.foldl_append, List.foldl_map]

theorem foldl_values_eq {A κ : Type} (g : A → Path → A)
    (table : List (κ × List Path)) (init : A) :
    table.foldl (fun d e => e.2.foldl g d) init = (allFiles table).foldl g init := by
  induction table generalizing init with
  | nil => rfl
  | cons e rest ih =>
    rw [List.foldl_cons, ih, allFiles_cons, List.foldl_append]

theorem buildHashTable_eq_flat (fs : FileSystem) (rootPath : String)
    (root : Option FsTree) :
    buildHashTable fs rootPath root
      = (walkFilePairs (osWalk rootPath root)).foldl
          (fun t df => buildStep fs t df.1 df.2) [] :=
  foldl_pairs_eq (buildStep fs) (osWalk rootPath root) []

theorem checkForDuplicates_eq_flat (fs : FileSystem)
    (table : List (Nat × List Path)) (chunkSize : Nat) :
    checkForDuplicates fs table chunkSize
      = (allFiles table).foldl (dupStep fs chunkSize) [] :=
  foldl_values_eq (dupStep fs chunkSize) table []

/-! ## Chunked reading -/

theorem chunkReaderFuel_flatten :
    ∀ (fuel : Nat) (c : List Byte) (n : Nat), c.length ≤ fuel → n ≠ 0 →
      (chunkReaderFuel fuel c n).flatten = c := by
  intro fuel
  induction fuel with
  | zero =>
    intro c n hc hn
    cases n with
    | zero => exact absurd rfl hn
    | succ m =>
      cases c with
      | nil => rfl
      | cons b bs => simp at hc
  | succ f ih =>
    intro c n hc hn
    cases n with
    | zero => exact absurd rfl hn
    | succ m =>
      cases c with
      | nil => rfl
      | cons b bs =>
        rw [chunkReaderFuel, List.flatten_cons, ih]
        · exact List.take_append_drop (m + 1) (b :: bs)
        · rw [List.length_drop, List.length_cons]
          rw [List.length_cons] at hc
          omega
        · exact hn

theorem chunkReader_flatten (c : List Byte) (n : Nat) (h : n ≠ 0) :
    (chunkReader c n).flatten = c :=
  chunkReaderFuel_flatten c.length c n le_rfl h

/-- With a positive chunk size, the full-content digest of a readable
file is (the idealised hash of) its whole content. -/
theorem digestOf_eq_read (fs : FileSystem) (chunkSize : Nat) (p : Path)
    (h : chunkSize ≠ 0) : digestOf fs chunkSize p = fs.read p := by
  unfold digestOf getHash
  cases hr : fs.read p with
  | none => rfl
  | some c => simp [sha512, chunkReader_flatten c chunkSize h]

/-! ## Invariants of the digest dictionary -/

theorem foldl_dupStep_entryProp (fs : FileSystem) (chunkSize : Nat) :
    ∀ (files : List Path) (d : List (Digest × List Path)),
      (∀ e ∈ d, ∀ p ∈ e.2, digestOf fs chunkSize p = some e.1) →
      ∀ e ∈ files.foldl (dupStep fs chunkSize) d, ∀ p ∈ e.2,
        digestOf fs chunkSize p = some e.1 := by
  intro files
  induction files with
  | nil => intro d hd; exact hd
  | cons q qs ih =>
    intro d hd
    rw [List.foldl_cons]
    cases hq : digestOf fs chunkSize q with
    | none =>
      rw [show dupStep fs chunkSize d q = d by rw [dupStep, hq]]
      exact ih d hd
    | some h0 =>
      rw [show dupStep fs chunkSize d q = appendEntry d h0 q by rw [dupStep, hq]]
      exact ih _
        (appendEntry_entryProp
          (Q := fun h p => digestOf fs chunkSize p = some h) d h0 q hd hq)

theorem checkForDuplicates_entry_digest (fs : FileSystem)
    (table : List (Nat × List Path)) (chunkSize : Nat) :
    ∀ e ∈ checkForDuplicates fs table chunkSize, ∀ p ∈ e.2,
      digestOf fs chunkSize p = some e.1 := by
  rw [checkForDuplicates_eq_flat]
  exact foldl_dupStep_entryProp fs chunkSize (allFiles table) [] (by simp)

theorem foldl_dupStep_members (fs : FileSystem) (chunkSize : Nat) :
    ∀ (files : List Path) (d : List (Digest × List Path)) (p : Path),
      p ∈ allFiles (files.foldl (dupStep fs chunkSize) d) →
      p ∈ allFiles d ∨ p ∈ files := by
  intro files
  induction files with
  | nil => intro d p hp; exact Or.inl hp
  | cons q qs ih =>
    intro d p hp
    rw [List.foldl_cons] at hp
    cases hq : digestOf fs chunkSize q with
    | none =>
      rw [show dupStep fs chunkSize d q = d by rw [dupStep, hq]] at hp
      rcases ih d p hp with h | h
      · exact Or.inl h
      · exact Or.inr (List.mem_cons_of_mem _ h)
    | some h0 =>
      rw [show dupStep fs chunkSize d q = appendEntry d h0 q by rw [dupStep, hq]] at hp
      rcases ih _ p hp with h | h
      · rcases allFiles_appendEntry_sub d h0 q p h with h | h
        · exact Or.inl h
        · exact Or.inr (h ▸ List.mem_cons_self q qs)
      · exact Or.inr (List.mem_cons_of_mem _ h)

theorem checkForDuplicates_members (fs : FileSystem)
    (table : List (Nat × List Path)) (chunkSize : Nat) :
    ∀ e ∈ checkForDuplicates fs table chunkSize, ∀ p ∈ e.2,
      p ∈ allFiles table := by
  intro e he p hp
  have hmem : p ∈ allFiles (checkForDuplicates fs table chunkSize) :=
    mem_allFiles.mpr ⟨e, he, hp⟩
  rw [checkForDuplicates_eq_flat] at hmem
  rcases foldl_dupStep_members fs chunkSize (allFiles table) [] p hmem with h | h
  · simp [allFiles] at h
  · exact h

theorem foldl_dupStep_ne_nil (fs : FileSystem) (chunkSize : Nat) :
    ∀ (files : List Path) (d : List (Digest × List Path)),
      (∀ e ∈ d, e.2 ≠ []) →
      ∀ e ∈ files.foldl (dupStep fs chunkSize) d, e.2 ≠ [] := by
  intro files
  induction files with
  | nil => intro d hd; exact hd
  | cons q qs ih =>
    intro d hd
    rw [List.foldl_cons]
    cases hq : digestOf fs chunkSize q with
    | none =>
      rw [show dupStep fs chunkSize d q = d by rw [dupStep, hq]]
      exact ih d hd
    | some h0 =>
      rw [show dupStep fs chunkSize d q = appendEntry d h0 q by rw [dupStep, hq]]
      exact ih _ (appendEntry_val_ne_nil d h0 q hd)

theorem checkForDuplicates_entry_ne_nil (fs : FileSystem)
    (table : List (Nat × List Path)) (chunkSize : Nat) :
    ∀ e ∈ checkForDuplicates fs table chunkSize, e.2 ≠ [] := by
  rw [checkForDuplicates_eq_flat]
  exact foldl_dupStep_ne_nil fs chunkSize (allFiles table) [] (by simp)

theorem lookupKey_foldl_dupStep (fs : FileSystem) (chunkSize : Nat) (h : Digest) :
    ∀ (files : List Path) (d : List (Digest × List Path)),
      lookupKey (files.foldl (dupStep fs chunkSize) d) h
        = lookupKey d h
            ++ files.filter (fun p => digestOf fs chunkSize p == some h) := by
  intro files
  induction files with
  | nil => intro d; simp
  | cons q qs ih =>
    intro d
    rw [List.foldl_cons, List.filter_cons]
    cases hq : digestOf fs chunkSize q with
    | none =>
      rw [show dupStep fs chunkSize d q = d by rw [dupStep, hq]]
      simpa using ih d
    | some h0 =>
      rw [show dupStep fs chunkSize d q = appendEntry d h0 q by rw [dupStep, hq]]
      by_cases hh : h0 = h
      · subst hh
        rw [ih, lookupKey_appendEntry_self]
        simp
      · rw [ih, lookupKey_appendEntry_ne d h0 h q (Ne.symm hh)]
        simp [hh]

theorem lookupKey_checkForDuplicates (fs : FileSystem)
    (table : List (Nat × List Path)) (chunkSize : Nat) (h : Digest) :
    lookupKey (checkForDuplicates fs table chunkSize) h
      = (allFiles table).filter (fun p => digestOf fs chunkSize p == some h) := by
  rw [checkForDuplicates_eq_flat, lookupKey_foldl_dupStep]
  rfl

/-! ## Invariants of the size table -/

theorem buildStep_hidden (fs : FileSystem) (t : List (Nat × List Path))
    (dirPath fileName : String) (h : hiddenName fileName = true) :
    buildStep fs t dirPath fileName = t := by
  rw [buildStep, if_pos h]

theorem buildStep_statFail (fs : FileSystem) (t : List (Nat × List Path))
    (dirPath fileName : String) (hh : hiddenName fileName = false)
    (hs : fs.stat (fs.realpath (joinPath dirPath fileName)) = none) :
    buildStep fs t dirPath fileName = t := by
  rw [buildStep, if_neg (by simp [hh])]
  simp only [hs]

theorem buildStep_statSuccess (fs : FileSystem) (t : List (Nat × List Path))
    (dirPath fileName : String) (size : Nat) (hh : hiddenName fileName = false)
    (hs : fs.stat (fs.realpath (joinPath dirPath fileName)) = some size) :
    buildStep fs t dirPath fileName
      = appendEntry t size (fs.realpath (joinPath dirPath fileName)) := by
  rw [buildStep, if_neg (by simp [hh])]
  simp only [hs]

theorem foldl_buildStep_entryProp (fs : FileSystem) (Q : Nat → Path → Prop)
    (hQ : ∀ dirPath fileName size,
      fs.stat (fs.realpath (joinPath dirPath fileName)) = some size →
      Q size (fs.realpath (joinPath dirPath fileName))) :
    ∀ (pairs : List (String × String)) (t : List (Nat × List Path)),
      (∀ e ∈ t, ∀ p ∈ e.2, Q e.1 p) →
      ∀ e ∈ pairs.foldl (fun t df => buildStep fs t df.1 df.2) t, ∀ p ∈ e.2,
        Q e.1 p := by
  intro pairs
  induction pairs with
  | nil => intro t ht; exact ht
  | cons df rest ih =>
    intro t ht
    rw [List.foldl_cons]
    cases hhid : hiddenName df.2 with
    | true =>
      rw [buildStep_hidden fs t df.1 df.2 hhid]
      exact ih t ht
    | false =>
      cases hstat : fs.stat (fs.realpath (joinPath df.1 df.2)) with
      | none =>
        rw [buildStep_statFail fs t df.1 df.2 hhid hstat]
        exact ih t ht
      | some size =>
        rw [buildStep_statSuccess fs t df.1 df.2 size hhid hstat]
        exact ih _
          (appendEntry_entryProp (Q := Q) t size _ ht (hQ df.1 df.2 size hstat))

theorem buildHashTable_entry_stat (fs : FileSystem) (rootPath : String)
    (root : Option FsTree) :
    ∀ e ∈ buildHashTable fs rootPath root, ∀ p ∈ e.2, fs.stat p = some e.1 := by
  rw [buildHashTable_eq_flat]
  exact foldl_buildStep_entryProp fs (fun s p => fs.stat p = some s)
    (fun _ _ _ hs => hs) _ [] (by simp)

theorem foldl_buildStep_keys_nodup (fs : FileSystem) :
    ∀ (pairs : List (String × String)) (t : List (Nat × List Path)),
      (keys t).Nodup →
      (keys (pairs.foldl (fun t df => buildStep fs t df.1 df.2) t)).Nodup := by
  intro pairs
  induction pairs with
  | nil => intro t ht; exact ht
  | cons df rest ih =>
    intro t ht
    rw [List.foldl_cons]
    cases hhid : hiddenName df.2 with
    | true =>
      rw [buildStep_hidden fs t df.1 df.2 hhid]
      exact ih t ht
    | false =>
      cases hstat : fs.stat (fs.realpath (joinPath df.1 df.2)) with
      | none =>
        rw [buildStep_statFail fs t df.1 df.2 hhid hstat]
        exact ih t ht
      | some size =>
        rw [buildStep_statSuccess fs t df.1 df.2 size hhid hstat]
        exact ih _ (keys_nodup_appendEntry t size _ ht)

theorem buildHashTable_keys_nodup (fs : FileSystem) (rootPath : String)
    (root : Option FsTree) : (keys (buildHashTable fs rootPath root)).Nodup := by
  rw [buildHashTable_eq_flat]
  exact foldl_buildStep_keys_nodup fs _ [] (by simp [keys])

theorem foldl_buildStep_origin (fs : FileSystem) :
    ∀ (pairs : List (String × String)) (t : List (Nat × List Path)) (p : Path),
      p ∈ allFiles (pairs.foldl (fun t df => buildStep fs t df.1 df.2) t) →
      p ∈ allFiles t
      ∨ ∃ df ∈ pairs, hiddenName df.2 = false
          ∧ p = fs.realpath (joinPath df.1 df.2) := by
  intro pairs
  induction pairs with
  | nil => intro t p hp; exact Or.inl hp
  | cons df rest ih =>
    intro t p hp
    rw [List.foldl_cons] at hp
    cases hhid : hiddenName df.2 with
    | true =>
      rw [buildStep_hidden fs t df.1 df.2 hhid] at hp
      rcases ih t p hp with h | ⟨df', hdf', h⟩
      · exact Or.inl h
      · exact Or.inr ⟨df', List.mem_cons_of_mem _ hdf', h⟩
    | false =>
      cases hstat : fs.stat (fs.realpath (joinPath df.1 df.2)) with
      | none =>
        rw [buildStep_statFail fs t df.1 df.2 hhid hstat] at hp
        rcases ih t p hp with h | ⟨df', hdf', h⟩
        · exact Or.inl h
        · exact Or.inr ⟨df', List.mem_cons_of_mem _ hdf', h⟩
      | some size =>
        rw [buildStep_statSuccess fs t df.1 df.2 size hhid hstat] at hp
        rcases ih _ p hp with h | ⟨df', hdf', h⟩
        · rcases allFiles_appendEntry_sub t size _ p h with h | h
          · exact Or.inl h
          · exact Or.inr ⟨df, List.mem_cons_self _ _, hhid, h⟩
        · exact Or.inr ⟨df', List.mem_cons_of_mem _ hdf', h⟩

theorem buildHashTable_origin (fs : FileSystem) (rootPath : String)
    (root : Option FsTree) :
    ∀ p ∈ allFiles (buildHashTable fs rootPath root),
      ∃ df ∈ walkFilePairs (osWalk rootPath root),
        hiddenName df.2 = false ∧ p = fs.realpath (joinPath df.1 df.2) := by
  intro p hp
  rw [buildHashTable_eq_flat] at hp
  rcases foldl_buildStep_origin fs _ [] p hp with h | h
  · simp [allFiles] at h
  · exact h

/-! ## Per-file failure containment -/

theorem allFiles_map_filter {κ : Type} (table : List (κ × List Path))
    (q : Path → Bool) :
    allFiles (table.map (fun e => (e.1, e.2.filter q)))
      = (allFiles table).filter q := by
  induction table with
  | nil => rfl
  | cons e rest ih =>
    rw [List.map_cons, allFiles_cons, allFiles_cons, List.filter_append, ih]

theorem foldl_dupStep_filter_readable (fs : FileSystem) (chunkSize : Nat) :
    ∀ (files : List Path) (d : List (Digest × List Path)),
      (files.filter (fun p => (fs.read p).isSome)).foldl (dupStep fs chunkSize) d
        = files.foldl (dupStep fs chunkSize) d := by
  intro files
  induction files with
  | nil => intro d; rfl
  | cons q qs ih =>
    intro d
    rw [List.filter_cons]
    cases hr : fs.read q with
    | none =>
      have hd : digestOf fs chunkSize q = none := by
        simp [digestOf, getHash, hr]
      simp only [Option.isSome_none, Bool.false_eq_true, if_false]
      rw [List.foldl_cons, show dupStep fs chunkSize d q = d by rw [dupStep, hd]]
      exact ih d
    | some c =>
      simp only [Option.isSome_some, if_true]
      rw [List.foldl_cons, List.foldl_cons]
      exact ih _

/-! ## The claims -/

/-- C1: the claim says that for two same-size files whose contents differ
within the first chunk, full-content hashing is never invoked and zero
duplicate groups are reported.  Evaluating the code on exactly that input:
zero groups are indeed reported, but `check_for_duplicates` invokes the
full-content `get_hash` on BOTH files — there is no prefix phase in the
code, contradicting the claim (and the function's own docstring). -/
theorem full_hash_called_when_first_chunk_differs :
    pipelineOutput exFs1 "root" (some exTree1) = []
    ∧ fullHashCalls (buildHashTable exFs1 "root" (some exTree1))
        = ["root/a.txt", "root/b.txt"] := by decide

/-- C2: every duplicate group in the reported output has at least 2
members, and on a static directory tree all members of one group have
the same byte size. -/
theorem reported_groups_min_two_same_size (fs : FileSystem) (rootPath : String)
    (root : Option FsTree) (hfs : StaticFS fs) :
    ∀ g ∈ pipelineOutput fs rootPath root,
      2 ≤ g.length ∧ ∃ s, ∀ p ∈ g, fs.stat p = some s := by
  intro g hg
  rw [pipelineOutput, reportedGroups, List.mem_filter] at hg
  obtain ⟨hmem, hlen⟩ := hg
  rw [List.mem_map] at hmem
  obtain ⟨e, he, rfl⟩ := hmem
  refine ⟨by simpa using hlen, e.1.length, ?_⟩
  intro p hp
  have hd := checkForDuplicates_entry_digest fs _ mainChunkSize e he p hp
  rw [digestOf_eq_read fs mainChunkSize p (by decide)] at hd
  exact hfs p e.1 hd

/-- Witness for C2: the hidden-directory run reports the group
`[root/.hidden/a, root/.hidden/b]`; it has 2 members and a common size. -/
theorem reported_groups_min_two_same_size_witness :
    2 ≤ (["root/.hidden/a", "root/.hidden/b"] : List Path).length ∧
      ∃ s, ∀ p ∈ (["root/.hidden/a", "root/.hidden/b"] : List Path),
        exFs5.stat p = some s :=
  reported_groups_min_two_same_size exFs5 "root" (some exTree5)
    (fun p c hc => by
      show (exRead5 p).map List.length = some c.length
      rw [show exRead5 p = some c from hc]
      rfl)
    ["root/.hidden/a", "root/.hidden/b"] (by decide)

/-- C3: every entry of the digest dictionary draws all its member paths
from a single size bucket of the hash table (on a static tree; digest
equality pins a single size, and size keys are unique). -/
theorem hash_group_members_single_size_group (fs : FileSystem)
    (rootPath : String) (root : Option FsTree) (hfs : StaticFS fs) :
    ∀ e ∈ checkForDuplicates fs (buildHashTable fs rootPath root) mainChunkSize,
      ∃ s sg, (s, sg) ∈ buildHashTable fs rootPath root ∧ ∀ p ∈ e.2, p ∈ sg := by
  intro e he
  have hne := checkForDuplicates_entry_ne_nil fs _ mainChunkSize e he
  obtain ⟨p0, hp0⟩ := List.exists_mem_of_ne_nil e.2 hne
  have hstat : ∀ p ∈ e.2, fs.stat p = some e.1.length := by
    intro p hp
    have hd := checkForDuplicates_entry_digest fs _ mainChunkSize e he p hp
    rw [digestOf_eq_read fs mainChunkSize p (by decide)] at hd
    exact hfs p e.1 hd
  have hmem : ∀ p ∈ e.2, ∃ sg,
      (e.1.length, sg) ∈ buildHashTable fs rootPath root ∧ p ∈ sg := by
    intro p hp
    have hall := checkForDuplicates_members fs _ mainChunkSize e he p hp
    rcases mem_allFiles.mp hall with ⟨⟨s1, sg1⟩, het, hpet⟩
    have hst : fs.stat p = some s1 :=
      buildHashTable_entry_stat fs rootPath root (s1, sg1) het p hpet
    rw [hstat p hp] at hst
    have hs : e.1.length = s1 := Option.some.inj hst
    exact ⟨sg1, by rw [hs]; exact het, hpet⟩
  obtain ⟨sg0, hsg0, hp0sg⟩ := hmem p0 hp0
  refine ⟨e.1.length, sg0, hsg0, ?_⟩
  intro p hp
  obtain ⟨sg1, hsg1, hpsg⟩ := hmem p hp
  have heq := entry_val_unique (buildHashTable_keys_nodup fs rootPath root) hsg1 hsg0
  rw [← heq]
  exact hpsg

/-- Witness for C3: in the symlink run the digest group of `[7,7,7]` draws
both (identical) member paths from one size bucket. -/
theorem hash_group_members_single_size_group_witness :
    ∃ s sg, (s, sg) ∈ buildHashTable exFs10 "root" (some exTree10) ∧
      ∀ p ∈ (([7, 7, 7], ["root/a.txt", "root/a.txt"]) : Digest × List Path).2,
        p ∈ sg :=
  hash_group_members_single_size_group exFs10 "root" (some exTree10)
    (fun p c hc => by
      by_cases hp : p = "root/a.txt"
      · subst hp
        rw [show exFs10.read "root/a.txt" = some [7, 7, 7] from by decide] at hc
        obtain rfl := (Option.some.inj hc).symm
        decide
      · rw [show exFs10.read p = none from by simp [exFs10, hp]] at hc
        exact Option.noConfusion hc)
    ([7, 7, 7], ["root/a.txt", "root/a.txt"]) (by decide)

/-- C4 counterexample: on a missing (or non-directory) root, `os.walk`
yields nothing, the script finishes normally, reports no groups, and the
process exits 0 — there is no `InvalidRootError` and no non-zero exit,
refuting the claim. -/
theorem invalid_root_exits_zero_cex :
    mainRun exFs1 "/nonexistent" none = ([], 0) := by decide

/-- C4 amended: if the root path does not exist or is not a directory, no
file is ever indexed, zero duplicate groups are reported, and the process
exits 0; no error is raised. -/
theorem invalid_root_silent_empty (fs : FileSystem) (rootPath : String) :
    buildHashTable fs rootPath none = [] ∧ mainRun fs rootPath none = ([], 0) :=
  ⟨rfl, rfl⟩

/-- C5 counterexample: a hidden DIRECTORY is traversed (the code never
prunes `dir_names`), so its non-hidden files are indexed and even
reported as a duplicate group — refuting "files inside it are never
indexed". -/
theorem hidden_dir_contents_reported_cex :
    pipelineOutput exFs5 "root" (some exTree5)
      = [["root/.hidden/a", "root/.hidden/b"]] := by decide

/-- C5 amended: every indexed path stems from a directory entry whose
FILE base name does not begin with a dot (hidden file names are skipped),
but hidden directories are still traversed: a file inside `.hidden` is
indexed. -/
theorem hidden_files_skipped_dirs_traversed :
    (∀ (fs : FileSystem) (rootPath : String) (root : Option FsTree) (p : Path),
      p ∈ allFiles (buildHashTable fs rootPath root) →
      ∃ df ∈ walkFilePairs (osWalk rootPath root),
        hiddenName df.2 = false ∧ p = fs.realpath (joinPath df.1 df.2))
    ∧ "root/.hidden/a" ∈ allFiles (buildHashTable exFs5 "root" (some exTree5)) := by
  constructor
  · intro fs rootPath root p hp
    exact buildHashTable_origin fs rootPath root p hp
  · decide

/-- Witness for C5 (amended): the indexed path `root/.hidden/a` stems
from a walk entry with a non-hidden file name. -/
theorem hidden_files_skipped_dirs_traversed_witness :
    ∃ df ∈ walkFilePairs (osWalk "root" (some exTree5)),
      hiddenName df.2 = false
        ∧ "root/.hidden/a" = exFs5.realpath (joinPath df.1 df.2) :=
  hidden_files_skipped_dirs_traversed.1 exFs5 "root" (some exTree5)
    "root/.hidden/a" (by decide)

/-- C6 (code evaluation): `build_argparse` registers only `--root_dir`, so
`--chunk_size` is rejected as an unrecognised argument, and the chunk size
actually used is the hardcoded 65000 — the validator `validate_chunk_size`
is dead code. -/
theorem chunk_size_not_registered :
    "--chunk_size" ∉ registeredOptions ∧ mainChunkSize = 65000 := by decide

/-- C7: per-file failures are contained.  (1) The digest dictionary is the
same whether or not unreadable files are first removed from every size
bucket (a failing read is dropped and affects nothing else); (2) every
indexed path could be stat'd (stat failures are dropped during the walk);
(3) every path in the result was successfully read. -/
theorem per_file_failures_contained (fs : FileSystem)
    (table : List (Nat × List Path)) (chunkSize : Nat)
    (rootPath : String) (root : Option FsTree) :
    checkForDuplicates fs table chunkSize
      = checkForDuplicates fs
          (table.map (fun e => (e.1, e.2.filter (fun p => (fs.read p).isSome))))
          chunkSize
    ∧ (∀ p ∈ allFiles (buildHashTable fs rootPath root), (fs.stat p).isSome = true)
    ∧ (∀ e ∈ checkForDuplicates fs table chunkSize, ∀ p ∈ e.2,
        (fs.read p).isSome = true) := by
  refine ⟨?_, ?_, ?_⟩
  · rw [checkForDuplicates_eq_flat, checkForDuplicates_eq_flat, allFiles_map_filter,
      foldl_dupStep_filter_readable]
  · intro p hp
    rcases mem_allFiles.mp hp with ⟨e, he, hpe⟩
    rw [buildHashTable_entry_stat fs rootPath root e he p hpe]
    rfl
  · intro e he p hp
    have hd := checkForDuplicates_entry_digest fs table chunkSize e he p hp
    cases hr : fs.read p with
    | none =>
      rw [show digestOf fs chunkSize p = none from by
        simp [digestOf, getHash, hr]] at hd
      exact Option.noConfusion hd
    | some c => rfl

/-- Witness for C7: a member of a computed duplicate group was indeed
successfully readable. -/
theorem per_file_failures_contained_witness :
    (exFs10.read "root/a.txt").isSome = true :=
  (per_file_failures_contained exFs10 [(3, ["root/a.txt", "root/a.txt"])] 65000
    "root" (some exTree10)).2.2 ([7, 7, 7], ["root/a.txt", "root/a.txt"])
    (by decide) "root/a.txt" (by decide)

/-- C8: for a readable file whose content is no longer than the chunk
size, `get_hash` with `first_chunk_only=True` equals `get_hash` over the
full content. -/
theorem first_chunk_hash_eq_full_for_small_files (fs : FileSystem) (p : Path)
    (c : List Byte) (chunkSize : Nat) (hread : fs.read p = some c)
    (hlen : c.length ≤ chunkSize) :
    getHash fs p true chunkSize = getHash fs p false chunkSize := by
  rw [getHash, getHash, hread]
  show some (sha512 (c.take chunkSize))
    = some (sha512 (chunkReader c chunkSize).flatten)
  by_cases h0 : chunkSize = 0
  · subst h0
    obtain rfl := List.eq_nil_of_length_eq_zero (Nat.le_zero.mp hlen)
    rfl
  · rw [sha512, sha512, chunkReader_flatten c chunkSize h0,
      List.take_of_length_le hlen]

/-- Witness for C8: a 3-byte file with the default 65000-byte chunk. -/
theorem first_chunk_hash_eq_full_for_small_files_witness :
    getHash exFs1 "root/a.txt" true 65000 = getHash exFs1 "root/a.txt" false 65000 :=
  first_chunk_hash_eq_full_for_small_files exFs1 "root/a.txt" [1, 2, 3] 65000
    (by decide) (by decide)

/-- C9: the pipeline is deterministic (two runs on the same state are
equal), and group membership is walk-order independent: permuting the
candidate files permutes each digest's group, so membership as path sets
is unchanged. -/
theorem scan_idempotent_and_walk_order_independent (fs : FileSystem)
    (rootPath : String) (root : Option FsTree)
    (table1 table2 : List (Nat × List Path)) (chunkSize : Nat) (h : Digest)
    (hperm : (allFiles table1).Perm (allFiles table2)) :
    pipelineOutput fs rootPath root = pipelineOutput fs rootPath root
    ∧ (lookupKey (checkForDuplicates fs table1 chunkSize) h).Perm
        (lookupKey (checkForDuplicates fs table2 chunkSize) h) := by
  refine ⟨rfl, ?_⟩
  rw [lookupKey_checkForDuplicates, lookupKey_checkForDuplicates]
  exact hperm.filter _

/-- Witness for C9: two size tables that list the same files in opposite
walk orders give permuted (equal as sets) digest groups. -/
theorem scan_idempotent_and_walk_order_independent_witness :
    pipelineOutput exFs1 "root" (some exTree1)
        = pipelineOutput exFs1 "root" (some exTree1)
    ∧ (lookupKey
        (checkForDuplicates exFs1 [(3, ["root/a.txt", "root/b.txt"])] 65000)
        [1, 2, 3]).Perm
        (lookupKey
          (checkForDuplicates exFs1 [(3, ["root/b.txt", "root/a.txt"])] 65000)
          [1, 2, 3]) :=
  scan_idempotent_and_walk_order_independent exFs1 "root" (some exTree1)
    [(3, ["root/a.txt", "root/b.txt"])] [(3, ["root/b.txt", "root/a.txt"])]
    65000 [1, 2, 3] (by decide)

/-- C10: resolved paths are not deduplicated: when a symlink and its
target are both walked, the same real path is appended once per directory
entry, and the program reports a group whose two members are the same
path. -/
theorem symlink_self_duplicate_reported :
    buildHashTable exFs10 "root" (some exTree10)
        = [(3, ["root/a.txt", "root/a.txt"])]
    ∧ pipelineOutput exFs10 "root" (some exTree10)
        = [["root/a.txt", "root/a.txt"]] := by decide

end FindDuplicates
